import Mathlib

/-!
Shallow embedding of the advection-scheme engine of `src/app.py`.

The engine works on fields `u : Fin n → K` (NumPy arrays of length `Nx`)
over a field `K` (the idealized real arithmetic of the Python floats).
`np.roll` becomes `roll`, `np.sum` becomes `total`, and each of the four
integration loops (FECS, Upwind, Leapfrog, Lax-Wendroff) becomes an
iteration of a step function on a state carrying the current field(s),
the accumulated history `u_all`, and the accumulated mass trace.
The configuration-derivation layer (`dx`, `dt`, `Nt` from the sliders)
is embedded as well.
-/

namespace Advection

/-- Index rotation underlying `np.roll`: the value of `np.roll(u, k)` at
position `i` is the value of `u` at position `(i - k) mod n`. -/
def rotIdx (n : ℕ) (k : ℤ) (i : Fin n) : Fin n :=
  ⟨(((i : ℤ) - k) % (n : ℤ)).toNat, by
    have hn : 0 < (n : ℤ) := by exact_mod_cast i.pos
    have h1 : 0 ≤ ((i : ℤ) - k) % (n : ℤ) := Int.emod_nonneg _ (ne_of_gt hn)
    have h2 : ((i : ℤ) - k) % (n : ℤ) < (n : ℤ) := Int.emod_lt_of_pos _ hn
    omega⟩

/-- Embedding of `np.roll(u, k)` (used by every scheme for its periodic
neighbor lookups): `roll u k i = u ((i - k) mod n)`. -/
def roll {n : ℕ} {K : Type} (u : Fin n → K) (k : ℤ) : Fin n → K :=
  fun i => u (rotIdx n k i)

/-- Embedding of `np.sum(u)`. -/
def total {n : ℕ} {K : Type} [AddCommMonoid K] (u : Fin n → K) : K :=
  ∑ i, u i

/-! ## The four integration loops

Each `if show_<scheme>:` block of `src/app.py` keeps a current field `u`,
a history list `u_all` (seeded with `[u0]`) and a mass list
(seeded with `[np.sum(u) * dx]`), and runs `for n in range(Nt)` appending
the updated field and its mass.  We embed the loop state as a structure
and the loop as `Function.iterate` of the loop body. -/

/-- Loop state of the single-level schemes (FECS, Upwind, Lax-Wendroff):
current field `u`, history `u_all`, mass trace `mass`. -/
structure SchemeRun (n : ℕ) (K : Type) where
  u : Fin n → K
  hist : List (Fin n → K)
  mass : List K

/-- One iteration of a single-level scheme loop: compute `u_next = f u`,
make it current, append a snapshot to the history and its mass
`np.sum(u) * dx` to the mass trace. -/
def stepAppend {n : ℕ} {K : Type} [Field K] (f : (Fin n → K) → Fin n → K) (dx : K)
    (s : SchemeRun n K) : SchemeRun n K :=
  ⟨f s.u, s.hist ++ [f s.u], s.mass ++ [total (f s.u) * dx]⟩

/-- The single-level scheme loop: state seeded with `u0`, `[u0]`,
`[np.sum(u0) * dx]`, then `Nt` iterations of the body. -/
def runScheme {n : ℕ} {K : Type} [Field K] (f : (Fin n → K) → Fin n → K) (dx : K)
    (u0 : Fin n → K) (Nt : ℕ) : SchemeRun n K :=
  (stepAppend f dx)^[Nt] ⟨u0, [u0], [total u0 * dx]⟩

/-- FECS update (line 69): `u - 0.5 * C * (np.roll(u, -1) - np.roll(u, 1))`. -/
def fecsStep {n : ℕ} {K : Type} [Field K] (C : K) (u : Fin n → K) : Fin n → K :=
  fun i => u i - 0.5 * C * (roll u (-1) i - roll u 1 i)

/-- Upwind update (line 81): `u - C * (u - np.roll(u, 1))`. -/
def upwindStep {n : ℕ} {K : Type} [Field K] (C : K) (u : Fin n → K) : Fin n → K :=
  fun i => u i - C * (u i - roll u 1 i)

/-- Lax-Wendroff update (lines 108-110): `u - term1 + term2` with
`term1 = 0.5 * C * (np.roll(u, -1) - np.roll(u, 1))` and
`term2 = 0.5 * C ** 2 * (np.roll(u, -1) - 2 * u + np.roll(u, 1))`. -/
def lwStep {n : ℕ} {K : Type} [Field K] (C : K) (u : Fin n → K) : Fin n → K :=
  fun i => u i - 0.5 * C * (roll u (-1) i - roll u 1 i)
    + 0.5 * C ^ 2 * (roll u (-1) i - 2 * u i + roll u 1 i)

/-- The `show_fecs` block (lines 64-74). -/
def runFecs {n : ℕ} {K : Type} [Field K] (u0 : Fin n → K) (C dx : K) (Nt : ℕ) :
    SchemeRun n K :=
  runScheme (fecsStep C) dx u0 Nt

/-- The `show_upwind` block (lines 76-86). -/
def runUpwind {n : ℕ} {K : Type} [Field K] (u0 : Fin n → K) (C dx : K) (Nt : ℕ) :
    SchemeRun n K :=
  runScheme (upwindStep C) dx u0 Nt

/-- The `show_lw` block (lines 103-115). -/
def runLw {n : ℕ} {K : Type} [Field K] (u0 : Fin n → K) (C dx : K) (Nt : ℕ) :
    SchemeRun n K :=
  runScheme (lwStep C) dx u0 Nt

/-- Leapfrog bootstrap (line 90):
`u_curr = u_prev - 0.5 * C * (np.roll(u_prev, -1) - np.roll(u_prev, 1))`. -/
def lfBoot {n : ℕ} {K : Type} [Field K] (C : K) (u : Fin n → K) : Fin n → K :=
  fun i => u i - 0.5 * C * (roll u (-1) i - roll u 1 i)

/-- Loop state of the two-level Leapfrog scheme: the previous and current
fields, the history and the mass trace. -/
structure LfRun (n : ℕ) (K : Type) where
  uPrev : Fin n → K
  uCurr : Fin n → K
  hist : List (Fin n → K)
  mass : List K

/-- One iteration of the Leapfrog loop (lines 94-99):
`u_next = u_prev - C * (np.roll(u_curr, -1) - np.roll(u_curr, 1))`,
then shift the level pair and append the snapshot and its mass. -/
def lfStep {n : ℕ} {K : Type} [Field K] (C dx : K) (s : LfRun n K) : LfRun n K :=
  let uNext : Fin n → K :=
    fun i => s.uPrev i - C * (roll s.uCurr (-1) i - roll s.uCurr 1 i)
  ⟨s.uCurr, uNext, s.hist ++ [uNext], s.mass ++ [total uNext * dx]⟩

/-- Initial Leapfrog state (lines 89-92): `u_prev = u0`, `u_curr` the
bootstrap step, history `[u_prev, u_curr]`, masses of both. -/
def lfInit {n : ℕ} {K : Type} [Field K] (C dx : K) (u0 : Fin n → K) : LfRun n K :=
  ⟨u0, lfBoot C u0, [u0, lfBoot C u0], [total u0 * dx, total (lfBoot C u0) * dx]⟩

/-- The `show_leapfrog` block (lines 88-101): bootstrap, then
`for n in range(Nt - 1)` iterations of the two-level update.  Note
`Nat` subtraction: for `Nt = 0` Python's `range(-1)` is empty, exactly
like `0 - 1 = 0` here. -/
def runLeapfrog {n : ℕ} {K : Type} [Field K] (u0 : Fin n → K) (C dx : K) (Nt : ℕ) :
    LfRun n K :=
  (lfStep C dx)^[Nt - 1] (lfInit C dx u0)

/-- The sequence of fields the Leapfrog loop generates:
`u_0, u_1 (bootstrap), u_{m+2} = u_m - C*(R(u_{m+1}) - L(u_{m+1}))`. -/
def lfSeq {n : ℕ} {K : Type} [Field K] (C : K) (u0 : Fin n → K) : ℕ → Fin n → K
  | 0 => u0
  | 1 => lfBoot C u0
  | m + 2 => fun i =>
      lfSeq C u0 m i - C * (roll (lfSeq C u0 (m + 1)) (-1) i - roll (lfSeq C u0 (m + 1)) 1 i)

/-! ## Grid, initial conditions and the configuration layer -/

/-- Grid (lines 43-44): `x = np.linspace(0, L, Nx + 1)` samples `i * L / Nx`
for `i = 0 .. Nx`; `x = x[:-1]` drops the point at `x = L`. -/
def grid {K : Type} [Field K] (L : K) (Nx : ℕ) : Fin Nx → K :=
  fun i => ((i : ℕ) : K) * L / (Nx : K)

/-- The `Square Pulse` branch of `get_initial_condition` (line 50):
`np.where(np.abs(x - center) < sig, 1.0, 0.0)`.  Stated over `ℚ`, where
the strict comparison is decidable; at the rational data of the claims
the binary floats of the source behave identically. -/
def squarePulse {n : ℕ} (sig center : ℚ) (x : Fin n → ℚ) : Fin n → ℚ :=
  fun i => if |x i - center| < sig then 1 else 0

/-- The `Gaussian Bell` branch of `get_initial_condition` (line 48):
`np.exp(-0.5 * ((x - center) / sig) ** 2)`. -/
noncomputable def bellIC (L : ℝ) (Nx : ℕ) (sig center : ℝ) : Fin Nx → ℝ :=
  fun i => Real.exp (-0.5 * ((grid L Nx i - center) / sig) ^ 2)

/-- Python 3 `round` (round-half-to-even), applied at line 26 in
`Nt = int(round(T_max / dt))`. -/
def pyRound (x : ℚ) : ℤ :=
  if x - ⌊x⌋ < 1/2 then ⌊x⌋
  else if 1/2 < x - ⌊x⌋ then ⌊x⌋ + 1
  else if 2 ∣ ⌊x⌋ then ⌊x⌋ else ⌊x⌋ + 1

/-- The sidebar configuration values (lines 17-41). -/
structure Config where
  L : ℚ
  v : ℚ
  Tmax : ℚ
  Nx : ℕ
  C : ℚ
  sigma : ℚ
  x0 : ℚ

/-- `dx = L / float(Nx)` (line 24). -/
def dxOf (c : Config) : ℚ := c.L / (c.Nx : ℚ)

/-- `dt = C * dx / v` (line 25). -/
def dtOf (c : Config) : ℚ := c.C * dxOf c / c.v

/-- `Nt = int(round(T_max / dt))` (line 26). -/
def NtOf (c : Config) : ℤ := pyRound (c.Tmax / dtOf c)

/-- The FECS block as the app runs it from a configuration: `Nt` is an
`int`, and `for n in range(Nt)` performs `max Nt 0` iterations, i.e.
`(NtOf c).toNat` many. -/
def appFecs (c : Config) (u0 : Fin c.Nx → ℚ) : SchemeRun c.Nx ℚ :=
  runFecs u0 c.C (dxOf c) (NtOf c).toNat

/-- The slider/selector ranges of the input layer (lines 17-41): every
configuration the UI can produce satisfies these bounds. -/
def sliderValid (c : Config) : Prop :=
  1 ≤ c.L ∧ c.L ≤ 100 ∧ 1/10 ≤ c.v ∧ c.v ≤ 5 ∧ 1/10 ≤ c.Tmax ∧ c.Tmax ≤ 5 ∧
    c.Nx ∈ ([50, 100, 200, 400, 800] : List ℕ) ∧ 1/10 ≤ c.C ∧ c.C ≤ 2 ∧
    1/100 ≤ c.sigma ∧ c.sigma ≤ 1/2 ∧ 0 ≤ c.x0 ∧ c.x0 ≤ c.L

/-- Modelled from the spec: a configuration is invalid when `L≤0`, `v≤0`,
`T_max≤0`, `Nx≤0`, `C≤0` or `σ≤0`; `specValid` is the complement. -/
def specValid (c : Config) : Prop :=
  0 < c.L ∧ 0 < c.v ∧ 0 < c.Tmax ∧ 0 < c.Nx ∧ 0 < c.C ∧ 0 < c.sigma

/-- An invalid configuration (negative domain length) fed directly to the
engine. -/
def badConfig : Config := ⟨-1, 1, 1, 4, 1, 1/10, 0⟩

/-! ## Spec-side operators (modelled from the spec for comparison) -/

/-- Modelled from the spec: the right-neighbor operator, the field value
one position to the right with wraparound, `output[i] = field[(i+1) mod Nx]`. -/
def rightNeighborSpec {n : ℕ} {K : Type} (u : Fin n → K) : Fin n → K :=
  fun i => u ⟨((i : ℕ) + 1) % n, Nat.mod_lt _ i.pos⟩

/-- Modelled from the spec: the left-neighbor operator, the field value
one position to the left with wraparound, `output[i] = field[(i-1) mod Nx]`
(written `(i + (n-1)) mod n` to stay in `ℕ`). -/
def leftNeighborSpec {n : ℕ} {K : Type} (u : Fin n → K) : Fin n → K :=
  fun i => u ⟨((i : ℕ) + (n - 1)) % n, Nat.mod_lt _ i.pos⟩

/-- Modelled from the spec: "the initial field shifted left by `m`
positions (mod Nx)", `output[i] = field[(i+m) mod Nx]`. -/
def shiftedLeftSpec {n : ℕ} {K : Type} (m : ℕ) (u : Fin n → K) : Fin n → K :=
  fun i => u ⟨((i : ℕ) + m) % n, Nat.mod_lt _ i.pos⟩

/-! ## Diagnostics used by the analysis -/

/-- Discrete ℓ² energy of a field, the quantity a von Neumann analysis
tracks. -/
def energy {n : ℕ} {K : Type} [Field K] (u : Fin n → K) : K :=
  ∑ i, (u i) ^ 2

/-- Largest absolute field value, `np.max(np.abs(u))`. -/
def maxAbs {n : ℕ} [NeZero n] (u : Fin n → ℝ) : ℝ :=
  Finset.univ.sup' Finset.univ_nonempty fun i => |u i|

instance neZeroHundred : NeZero (100 : ℕ) := ⟨by norm_num⟩

/-! ## Concrete test fields -/

/-- Unit impulse on three grid points. -/
def impulse3 : Fin 3 → ℚ := fun i => if (i : ℕ) = 0 then 1 else 0

/-- The field `(0, 1, 2)` on three grid points. -/
def ramp3 : Fin 3 → ℚ := fun i => ((i : ℕ) : ℚ)

/-- The field `{0, 1, 1, 0}` that the spec asserts for the Square-Pulse
scenario. -/
def pulseSpecC3 : Fin 4 → ℚ := fun i => if (i : ℕ) = 1 ∨ (i : ℕ) = 2 then 1 else 0

/-- The field `{0, 1, 1, 1}`. -/
def pulseActualC3 : Fin 4 → ℚ := fun i => if (i : ℕ) = 0 then 0 else 1

/-! # Theorems -/

/-! ## Index arithmetic of the circular shift -/

theorem rotIdx_coe (n : ℕ) (k : ℤ) (i : Fin n) :
    ((rotIdx n k i : ℕ) : ℤ) = ((i : ℤ) - k) % (n : ℤ) := by
  have hn : 0 < (n : ℤ) := by exact_mod_cast i.pos
  exact Int.toNat_of_nonneg (Int.emod_nonneg _ (ne_of_gt hn))

theorem rotIdx_rotIdx (n : ℕ) (k j : ℤ) (i : Fin n) :
    rotIdx n k (rotIdx n j i) = rotIdx n (j + k) i := by
  apply Fin.ext
  have h1 := rotIdx_coe n k (rotIdx n j i)
  have h2 := rotIdx_coe n j i
  have h3 := rotIdx_coe n (j + k) i
  rw [h2] at h1
  have key : (((i : ℤ) - j) % (n : ℤ) - k) % (n : ℤ) = ((i : ℤ) - (j + k)) % (n : ℤ) := by
    conv_rhs => rw [show (i : ℤ) - (j + k) = ((i : ℤ) - j) - k by ring]
    rw [Int.sub_emod (((i : ℤ) - j) % (n : ℤ)) k, Int.emod_emod_of_dvd _ dvd_rfl,
      ← Int.sub_emod]
  rw [key, ← h3] at h1
  exact_mod_cast h1

theorem rotIdx_zero (n : ℕ) (i : Fin n) : rotIdx n 0 i = i := by
  apply Fin.ext
  have h1 := rotIdx_coe n 0 i
  rw [sub_zero, Int.emod_eq_of_lt (by exact_mod_cast Nat.zero_le _)
    (by exact_mod_cast i.isLt)] at h1
  exact_mod_cast h1

theorem roll_roll {n : ℕ} {K : Type} (u : Fin n → K) (j k : ℤ) :
    roll (roll u j) k = roll u (j + k) := by
  funext i
  simp only [roll]
  rw [show rotIdx n j (rotIdx n k i) = rotIdx n (k + j) i from rotIdx_rotIdx n j k i,
    show k + j = j + k by ring]

theorem roll_zero {n : ℕ} {K : Type} (u : Fin n → K) : roll u 0 = u := by
  funext i
  simp [roll, rotIdx_zero]

theorem total_roll {n : ℕ} {K : Type} [AddCommMonoid K] (u : Fin n → K) (k : ℤ) :
    total (roll u k) = total u := by
  simpa [roll, total, Equiv.coe_fn_mk] using
    Equiv.sum_comp
      (⟨rotIdx n k, rotIdx n (-k),
        fun i => by rw [rotIdx_rotIdx, show k + -k = 0 by ring, rotIdx_zero],
        fun i => by rw [rotIdx_rotIdx, show -k + k = 0 by ring, rotIdx_zero]⟩ :
        Fin n ≃ Fin n) u

/-- Cyclic reindexing of a product against a rolled copy: summing
`u i * u (i+1)` and summing `u i * u (i-1)` over a full period agree. -/
theorem sum_mul_roll_neg_one {n : ℕ} {K : Type} [CommRing K] (u : Fin n → K) :
    ∑ i, u i * roll u (-1) i = ∑ i, u i * roll u 1 i := by
  have h := Equiv.sum_comp
    (⟨rotIdx n 1, rotIdx n (-1),
      fun i => by rw [rotIdx_rotIdx, show (1 : ℤ) + -1 = 0 by ring, rotIdx_zero],
      fun i => by rw [rotIdx_rotIdx, show (-1 : ℤ) + 1 = 0 by ring, rotIdx_zero]⟩ :
      Fin n ≃ Fin n) (fun i => u i * u (rotIdx n (-1) i))
  simp only [Equiv.coe_fn_mk] at h
  calc ∑ i, u i * roll u (-1) i
      = ∑ i, u i * u (rotIdx n (-1) i) := by simp [roll]
    _ = ∑ j, u (rotIdx n 1 j) * u (rotIdx n (-1) (rotIdx n 1 j)) := h.symm
    _ = ∑ j, u j * u (rotIdx n 1 j) := by
        apply Finset.sum_congr rfl
        intro j _
        rw [rotIdx_rotIdx, show (1 : ℤ) + -1 = 0 by ring, rotIdx_zero, mul_comm]
    _ = ∑ i, u i * roll u 1 i := by simp [roll]

/-! ## Closed forms of the loops -/

theorem runScheme_closed {n : ℕ} {K : Type} [Field K] (f : (Fin n → K) → Fin n → K)
    (dx : K) (u0 : Fin n → K) (Nt : ℕ) :
    runScheme f dx u0 Nt =
      ⟨f^[Nt] u0, (List.range (Nt + 1)).map (fun k => f^[k] u0),
        (List.range (Nt + 1)).map fun k => total (f^[k] u0) * dx⟩ := by
  induction Nt with
  | zero =>
    have h1 : List.range 1 = [0] := rfl
    simp [runScheme, h1]
  | succ m ih =>
    have h : runScheme f dx u0 (m + 1) = stepAppend f dx (runScheme f dx u0 m) :=
      Function.iterate_succ_apply' _ _ _
    rw [h, ih]
    simp [stepAppend, List.range_succ, Function.iterate_succ_apply']

theorem lfIter_closed {n : ℕ} {K : Type} [Field K] (C dx : K) (u0 : Fin n → K) :
    ∀ m : ℕ, (lfStep C dx)^[m] (lfInit C dx u0) =
      ⟨lfSeq C u0 m, lfSeq C u0 (m + 1), (List.range (m + 2)).map (lfSeq C u0),
        (List.range (m + 2)).map fun k => total (lfSeq C u0 k) * dx⟩
  | 0 => by
    have h2 : List.range 2 = [0, 1] := rfl
    simp [lfInit, lfSeq, h2]
  | m + 1 => by
    have h : (lfStep C dx)^[m + 1] (lfInit C dx u0) =
        lfStep C dx ((lfStep C dx)^[m] (lfInit C dx u0)) :=
      Function.iterate_succ_apply' _ _ _
    rw [h, lfIter_closed C dx u0 m]
    simp only [lfStep, lfSeq, List.range_succ, List.map_append, List.map_cons,
      List.map_nil, List.append_assoc, List.singleton_append]

theorem runLeapfrog_closed {n : ℕ} {K : Type} [Field K] (u0 : Fin n → K) (C dx : K)
    (Nt : ℕ) :
    runLeapfrog u0 C dx Nt =
      ⟨lfSeq C u0 (Nt - 1), lfSeq C u0 (Nt - 1 + 1),
        (List.range (Nt - 1 + 2)).map (lfSeq C u0),
        (List.range (Nt - 1 + 2)).map fun k => total (lfSeq C u0 k) * dx⟩ :=
  lfIter_closed C dx u0 (Nt - 1)

/-! ## Consequences of the closed forms -/

theorem runScheme_u {n : ℕ} {K : Type} [Field K] (f : (Fin n → K) → Fin n → K)
    (dx : K) (u0 : Fin n → K) (Nt : ℕ) : (runScheme f dx u0 Nt).u = f^[Nt] u0 := by
  rw [runScheme_closed]

theorem runScheme_hist_length {n : ℕ} {K : Type} [Field K]
    (f : (Fin n → K) → Fin n → K) (dx : K) (u0 : Fin n → K) (Nt : ℕ) :
    (runScheme f dx u0 Nt).hist.length = Nt + 1 := by
  rw [runScheme_closed]
  simp

theorem runScheme_mass_length {n : ℕ} {K : Type} [Field K]
    (f : (Fin n → K) → Fin n → K) (dx : K) (u0 : Fin n → K) (Nt : ℕ) :
    (runScheme f dx u0 Nt).mass.length = Nt + 1 := by
  rw [runScheme_closed]
  simp

theorem runScheme_mass_map {n : ℕ} {K : Type} [Field K]
    (f : (Fin n → K) → Fin n → K) (dx : K) (u0 : Fin n → K) (Nt : ℕ) :
    (runScheme f dx u0 Nt).mass = (runScheme f dx u0 Nt).hist.map fun v => dx * total v := by
  rw [runScheme_closed]
  simp only [List.map_map]
  congr 1
  funext k
  simp [Function.comp, mul_comm]

theorem runScheme_hist_getLast {n : ℕ} {K : Type} [Field K]
    (f : (Fin n → K) → Fin n → K) (dx : K) (u0 : Fin n → K) (Nt : ℕ) :
    (runScheme f dx u0 Nt).hist.getLast? = some ((runScheme f dx u0 Nt).u) := by
  rw [runScheme_closed]
  simp [List.range_succ]

theorem runLeapfrog_hist_length {n : ℕ} {K : Type} [Field K] (u0 : Fin n → K)
    (C dx : K) (Nt : ℕ) : (runLeapfrog u0 C dx Nt).hist.length = Nt - 1 + 2 := by
  rw [runLeapfrog_closed]
  simp

theorem runLeapfrog_mass_length {n : ℕ} {K : Type} [Field K] (u0 : Fin n → K)
    (C dx : K) (Nt : ℕ) : (runLeapfrog u0 C dx Nt).mass.length = Nt - 1 + 2 := by
  rw [runLeapfrog_closed]
  simp

theorem runLeapfrog_mass_map {n : ℕ} {K : Type} [Field K] (u0 : Fin n → K)
    (C dx : K) (Nt : ℕ) :
    (runLeapfrog u0 C dx Nt).mass = (runLeapfrog u0 C dx Nt).hist.map fun v => dx * total v := by
  rw [runLeapfrog_closed]
  simp only [List.map_map]
  congr 1
  funext k
  simp [Function.comp, mul_comm]

theorem runLeapfrog_hist_one {n : ℕ} {K : Type} [Field K] (u0 : Fin n → K)
    (C dx : K) (Nt : ℕ) :
    (runLeapfrog u0 C dx Nt).hist[1]? = some (lfBoot C u0) := by
  rw [runLeapfrog_closed]
  have h1 : (List.range (Nt - 1 + 2))[1]? = some 1 :=
    List.getElem?_range (by omega)
  simp only [List.getElem?_map, h1, Option.map_some]
  rfl

/-! ## Exact mass conservation of the update formulas -/

/-- Summing a field updated by any centered-difference correction
`a - c * (R(b) - L(b))` gives the sum of `a`: both rolls of `b`
sum to the sum of `b`. -/
theorem total_centered {n : ℕ} {K : Type} [Field K] (a b : Fin n → K) (c : K) :
    total (fun i => a i - c * (roll b (-1) i - roll b 1 i)) = total a := by
  have hR : total (roll b (-1)) = total b := total_roll b (-1)
  have hL : total (roll b 1) = total b := total_roll b 1
  simp only [total] at *
  rw [Finset.sum_sub_distrib, ← Finset.mul_sum, Finset.sum_sub_distrib, hR, hL]
  ring

theorem fecsStep_total {n : ℕ} {K : Type} [Field K] (C : K) (u : Fin n → K) :
    total (fecsStep C u) = total u :=
  total_centered u u (0.5 * C)

theorem lfBoot_total {n : ℕ} {K : Type} [Field K] (C : K) (u : Fin n → K) :
    total (lfBoot C u) = total u :=
  total_centered u u (0.5 * C)

theorem upwindStep_total {n : ℕ} {K : Type} [Field K] (C : K) (u : Fin n → K) :
    total (upwindStep C u) = total u := by
  have hL : total (roll u 1) = total u := total_roll u 1
  simp only [upwindStep, total] at *
  rw [Finset.sum_sub_distrib, ← Finset.mul_sum, Finset.sum_sub_distrib, hL]
  ring

theorem lwStep_total {n : ℕ} {K : Type} [Field K] (C : K) (u : Fin n → K) :
    total (lwStep C u) = total u := by
  have hR : total (roll u (-1)) = total u := total_roll u (-1)
  have hL : total (roll u 1) = total u := total_roll u 1
  simp only [lwStep, total] at *
  rw [Finset.sum_add_distrib, Finset.sum_sub_distrib, ← Finset.mul_sum,
    Finset.sum_sub_distrib, hR, hL, ← Finset.mul_sum, Finset.sum_add_distrib,
    Finset.sum_sub_distrib, hR, hL, ← Finset.mul_sum]
  ring

theorem iterate_total {n : ℕ} {K : Type} [Field K] {f : (Fin n → K) → Fin n → K}
    (hf : ∀ v, total (f v) = total v) (u0 : Fin n → K) :
    ∀ m : ℕ, total (f^[m] u0) = total u0
  | 0 => rfl
  | m + 1 => by
    rw [Function.iterate_succ_apply', hf, iterate_total hf u0 m]

theorem lfSeq_total {n : ℕ} {K : Type} [Field K] (C : K) (u0 : Fin n → K) :
    ∀ m : ℕ, total (lfSeq C u0 m) = total u0
  | 0 => rfl
  | 1 => lfBoot_total C u0
  | m + 2 => by
    have h := total_centered (lfSeq C u0 m) (lfSeq C u0 (m + 1)) C
    calc total (lfSeq C u0 (m + 2))
        = total (lfSeq C u0 m) := h
      _ = total u0 := lfSeq_total C u0 m

/-- A map over `List.range` with constant value is a `replicate`. -/
theorem map_range_replicate {K : Type} (g : ℕ → K) (a : K) (m : ℕ)
    (hg : ∀ k, g k = a) : (List.range m).map g = List.replicate m a := by
  calc (List.range m).map g
      = List.replicate ((List.range m).map g).length a := by
        refine List.eq_replicate_length.mpr ?_
        intro b hb
        obtain ⟨k, _, rfl⟩ := List.mem_map.mp hb
        exact hg k
    _ = List.replicate m a := by simp

theorem runScheme_conserves {n : ℕ} {K : Type} [Field K]
    {f : (Fin n → K) → Fin n → K} (hf : ∀ v, total (f v) = total v) (dx : K)
    (u0 : Fin n → K) (Nt : ℕ) :
    (runScheme f dx u0 Nt).hist.map total = List.replicate (Nt + 1) (total u0) ∧
      (runScheme f dx u0 Nt).mass = List.replicate (Nt + 1) (dx * total u0) := by
  rw [runScheme_closed]
  constructor
  · rw [List.map_map]
    exact map_range_replicate _ _ _ fun k => iterate_total hf u0 k
  · refine map_range_replicate _ _ _ fun k => ?_
    rw [iterate_total hf u0 k, mul_comm]

theorem runLeapfrog_conserves {n : ℕ} {K : Type} [Field K] (u0 : Fin n → K)
    (C dx : K) (Nt : ℕ) :
    (runLeapfrog u0 C dx Nt).hist.map total = List.replicate (Nt - 1 + 2) (total u0) ∧
      (runLeapfrog u0 C dx Nt).mass = List.replicate (Nt - 1 + 2) (dx * total u0) := by
  rw [runLeapfrog_closed]
  constructor
  · rw [List.map_map]
    exact map_range_replicate _ _ _ fun k => lfSeq_total C u0 k
  · refine map_range_replicate _ _ _ fun k => ?_
    rw [lfSeq_total C u0 k, mul_comm]

/-! ## The shift convention against the spec-side operators -/

theorem roll_neg_one_eq_rightNeighbor {n : ℕ} {K : Type} (u : Fin n → K) :
    roll u (-1) = rightNeighborSpec u := by
  funext i
  refine congrArg u (Fin.ext ?_)
  show (((i : ℤ) - (-1)) % (n : ℤ)).toNat = ((i : ℕ) + 1) % n
  rw [sub_neg_eq_add,
    show ((i : ℤ) + 1) = (((i : ℕ) + 1 : ℕ) : ℤ) by push_cast; ring,
    ← Int.natCast_mod, Int.toNat_natCast]

theorem roll_one_eq_leftNeighbor {n : ℕ} {K : Type} (u : Fin n → K) :
    roll u 1 = leftNeighborSpec u := by
  funext i
  refine congrArg u (Fin.ext ?_)
  show (((i : ℤ) - 1) % (n : ℤ)).toNat = ((i : ℕ) + (n - 1)) % n
  have hn : 1 ≤ n := i.pos
  rw [show (i : ℤ) - 1 = ((i : ℤ) + ((n : ℤ) - 1)) + -1 * (n : ℤ) by ring,
    Int.add_mul_emod_self,
    show (i : ℤ) + ((n : ℤ) - 1) = (((i : ℕ) + (n - 1) : ℕ) : ℤ) by
      push_cast [Nat.cast_sub hn]; ring,
    ← Int.natCast_mod, Int.toNat_natCast]

theorem roll_one_point {K : Type} (u : Fin 1 → K) (k : ℤ) : roll u k = u := by
  funext i
  exact congrArg u (Subsingleton.elim _ _)

/-! ## Upwind at unit Courant number is a pure rotation -/

theorem upwindStep_unit {n : ℕ} {K : Type} [Field K] (u : Fin n → K) :
    upwindStep (1 : K) u = roll u 1 := by
  funext i
  show u i - 1 * (u i - roll u 1 i) = roll u 1 i
  ring

theorem upwind_unit_iterate {n : ℕ} {K : Type} [Field K] (u0 : Fin n → K) :
    ∀ m : ℕ, (upwindStep (1 : K))^[m] u0 = roll u0 (m : ℤ)
  | 0 => (roll_zero u0).symm
  | m + 1 => by
    rw [Function.iterate_succ_apply', upwind_unit_iterate u0 m, upwindStep_unit,
      roll_roll]
    push_cast
    rfl

/-! ## Discrete energy of the FECS step -/

theorem fecsStep_energy {n : ℕ} {K : Type} [Field K] [CharZero K] (C : K)
    (u : Fin n → K) :
    energy (fecsStep C u) =
      energy u + ∑ i, ((1 / 2) * C * (roll u (-1) i - roll u 1 i)) ^ 2 := by
  have hcross : ∑ i, u i * roll u (-1) i = ∑ i, u i * roll u 1 i :=
    sum_mul_roll_neg_one u
  have h05 : (0.5 : K) = 1 / 2 := by norm_num
  simp only [energy, fecsStep, h05]
  rw [Finset.sum_congr rfl fun i _ =>
    show (u i - 1 / 2 * C * (roll u (-1) i - roll u 1 i)) ^ 2
        = (u i) ^ 2 - C * (u i * roll u (-1) i - u i * roll u 1 i)
          + (1 / 2 * C * (roll u (-1) i - roll u 1 i)) ^ 2 from by ring]
  rw [Finset.sum_add_distrib, Finset.sum_sub_distrib, ← Finset.mul_sum,
    Finset.sum_sub_distrib, hcross]
  ring

theorem fecsStep_energy_le {n : ℕ} {K : Type} [LinearOrderedField K] (C : K)
    (u : Fin n → K) : energy u ≤ energy (fecsStep C u) := by
  rw [fecsStep_energy]
  have h : (0 : K) ≤ ∑ i, ((1 / 2) * C * (roll u (-1) i - roll u 1 i)) ^ 2 :=
    Finset.sum_nonneg fun i _ => sq_nonneg _
  linarith

theorem fecs_energy_iterate {n : ℕ} {K : Type} [LinearOrderedField K] (C : K)
    (u0 : Fin n → K) : ∀ m : ℕ, energy u0 ≤ energy ((fecsStep C)^[m] u0)
  | 0 => le_refl _
  | m + 1 => by
    rw [Function.iterate_succ_apply']
    exact (fecs_energy_iterate C u0 m).trans (fecsStep_energy_le C _)

/-! ## Amplitude bound of the FECS step for small Courant numbers -/

theorem abs_le_maxAbs {n : ℕ} [NeZero n] (u : Fin n → ℝ) (i : Fin n) :
    |u i| ≤ maxAbs u := by
  unfold maxAbs
  exact Finset.le_sup' (fun j => |u j|) (Finset.mem_univ i)

theorem maxAbs_le {n : ℕ} [NeZero n] {u : Fin n → ℝ} {b : ℝ}
    (h : ∀ i, |u i| ≤ b) : maxAbs u ≤ b := by
  unfold maxAbs
  exact Finset.sup'_le _ _ fun i _ => h i

theorem maxAbs_nonneg {n : ℕ} [NeZero n] (u : Fin n → ℝ) : 0 ≤ maxAbs u := by
  obtain ⟨i⟩ : Nonempty (Fin n) := inferInstance
  exact (abs_nonneg (u i)).trans (abs_le_maxAbs u i)

theorem fecsStep_maxAbs_le {n : ℕ} [NeZero n] {C : ℝ} (hC : 0 ≤ C)
    (u : Fin n → ℝ) : maxAbs (fecsStep C u) ≤ (1 + C) * maxAbs u := by
  apply maxAbs_le
  intro i
  have hM : 0 ≤ maxAbs u := maxAbs_nonneg u
  have hu := abs_le_maxAbs u i
  have hR : |roll u (-1) i| ≤ maxAbs u := abs_le_maxAbs u (rotIdx n (-1) i)
  have hL : |roll u 1 i| ≤ maxAbs u := abs_le_maxAbs u (rotIdx n 1 i)
  rw [abs_le] at hu hR hL
  have hd1 : C * (roll u (-1) i - roll u 1 i) ≤ C * (2 * maxAbs u) :=
    mul_le_mul_of_nonneg_left (by linarith [hR.2, hL.1]) hC
  have hd2 : C * (-(2 * maxAbs u)) ≤ C * (roll u (-1) i - roll u 1 i) :=
    mul_le_mul_of_nonneg_left (by linarith [hR.1, hL.2]) hC
  have h05 : (0.5 : ℝ) = 1 / 2 := by norm_num
  show |u i - 0.5 * C * (roll u (-1) i - roll u 1 i)| ≤ (1 + C) * maxAbs u
  rw [h05, abs_le]
  constructor
  · nlinarith [hu.1, hd2]
  · nlinarith [hu.2, hd1]

theorem fecs_iterate_maxAbs {n : ℕ} [NeZero n] {C : ℝ} (hC : 0 ≤ C)
    (u0 : Fin n → ℝ) :
    ∀ m : ℕ, maxAbs ((fecsStep C)^[m] u0) ≤ (1 + C) ^ m * maxAbs u0
  | 0 => by simp
  | m + 1 => by
    rw [Function.iterate_succ_apply']
    calc maxAbs (fecsStep C ((fecsStep C)^[m] u0))
        ≤ (1 + C) * maxAbs ((fecsStep C)^[m] u0) := fecsStep_maxAbs_le hC _
      _ ≤ (1 + C) * ((1 + C) ^ m * maxAbs u0) :=
          mul_le_mul_of_nonneg_left (fecs_iterate_maxAbs hC u0 m) (by linarith)
      _ = (1 + C) ^ (m + 1) * maxAbs u0 := by ring

theorem pow_small_growth : ((1 : ℝ) + 1 / 1000) ^ 500 ≤ 2 := by
  have hB := one_add_mul_le_pow (a := -(1 / 1000 : ℝ)) (by norm_num) 500
  have h1 : (1 / 2 : ℝ) ≤ (1 - 1 / 1000) ^ 500 := by
    have he : (1 : ℝ) + -(1 / 1000) = 1 - 1 / 1000 := by norm_num
    rw [he] at hB
    have hc : (1 : ℝ) + (500 : ℕ) * -(1 / 1000) = 1 / 2 := by norm_num
    linarith [hB, hc.ge]
  have h2 : ((1 : ℝ) + 1 / 1000) ^ 500 * ((1 : ℝ) - 1 / 1000) ^ 500 ≤ 1 := by
    rw [← mul_pow,
      show ((1 : ℝ) + 1 / 1000) * (1 - 1 / 1000) = 1 - 1 / 1000000 by norm_num]
    exact pow_le_one₀ (by norm_num) (by norm_num)
  have ha : (0 : ℝ) ≤ (1 + 1 / 1000) ^ 500 := pow_nonneg (by norm_num) _
  nlinarith [h1, h2, ha]

theorem pyRound_nonneg {x : ℚ} (hx : 0 ≤ x) : 0 ≤ pyRound x := by
  unfold pyRound
  have h0 : 0 ≤ ⌊x⌋ := Int.floor_nonneg.mpr hx
  split_ifs <;> omega

/-! # Claim theorems -/

/-- Claim C1, evaluated at the failing input: the Leapfrog run with
`Nt = 0` emits 2 history entries and 2 mass entries — the initial field
plus the unconditional bootstrap — not `Nt + 1 = 1`, so the step-count
invariant fails for Leapfrog at `Nt = 0` (the other three schemes and
`Nt ≥ 1` respect it, see the amended claim C2 and the closed forms). -/
theorem leapfrog_nt_zero_step_count :
    (runLeapfrog impulse3 1 (1/3) 0).hist.length = 2 ∧
      (runLeapfrog impulse3 1 (1/3) 0).mass.length = 2 ∧
      (runLeapfrog impulse3 1 (1/3) 0).hist.length ≠ 0 + 1 := by
  refine ⟨?_, ?_, ?_⟩ <;>
    simp [runLeapfrog_hist_length, runLeapfrog_mass_length]

/-- Claim C2, evaluated at the failing input: with `Nt = 0`, FECS, Upwind
and Lax-Wendroff do produce `History = [u0]` with `MassTrace = [dx·Σu0]`,
but Leapfrog produces the two-entry history `[u0, bootstrap]`, so
`History = [u0]` fails for Leapfrog. -/
theorem nt_zero_histories :
    (runFecs impulse3 1 (1/3) 0).hist = [impulse3] ∧
      (runUpwind impulse3 1 (1/3) 0).hist = [impulse3] ∧
      (runLw impulse3 1 (1/3) 0).hist = [impulse3] ∧
      (runFecs impulse3 1 (1/3) 0).mass = [(1/3) * total impulse3] ∧
      (runLeapfrog impulse3 1 (1/3) 0).hist = [impulse3, lfBoot 1 impulse3] ∧
      (runLeapfrog impulse3 1 (1/3) 0).hist ≠ [impulse3] := by
  refine ⟨rfl, rfl, rfl, ?_, rfl, ?_⟩
  · show [total impulse3 * (1/3)] = [(1/3) * total impulse3]
    rw [mul_comm]
  · intro h
    have hl := congrArg List.length h
    rw [runLeapfrog_hist_length] at hl
    simp at hl

/-- Claim C4 (amended): the shift satisfies
`shift(field, k)[i] = field[(i - k) mod Nx]`, and for `Nx = 1` every shift
is the identity — but under this convention the right-neighbor operator
used by the schemes is `R(u) = shift(u, -1)` and the left-neighbor
operator is `L(u) = shift(u, +1)`, the reverse of the claimed labelling. -/
theorem shift_semantics {n : ℕ} {K : Type} (u : Fin n → K) (k : ℤ) (i : Fin n) :
    roll u k i = u (rotIdx n k i) ∧
      ((rotIdx n k i : ℕ) : ℤ) = ((i : ℤ) - k) % (n : ℤ) ∧
      roll u (-1) = rightNeighborSpec u ∧
      roll u 1 = leftNeighborSpec u ∧
      ∀ (w : Fin 1 → K) (j : ℤ), roll w j = w :=
  ⟨rfl, rotIdx_coe n k i, roll_neg_one_eq_rightNeighbor u,
    roll_one_eq_leftNeighbor u, fun w j => roll_one_point w j⟩

/-- Claim C6 (amended): with `C = 1` exactly the Upwind update is the pure
shift `u_{n+1} = shift(u_n, +1)` — each point takes its left neighbor's
value, so after `Nt` steps the final field is `shift(u0, Nt)`, i.e.
`final[i] = u0[(i - Nt) mod Nx]`: the profile moves right, not left. -/
theorem upwind_unit_courant_shift {n : ℕ} {K : Type} [Field K] (u u0 : Fin n → K)
    (dx : K) (Nt : ℕ) :
    upwindStep (1 : K) u = roll u 1 ∧
      (runUpwind u0 (1 : K) dx Nt).u = roll u0 (Nt : ℤ) := by
  refine ⟨upwindStep_unit u, ?_⟩
  show (runScheme (upwindStep 1) dx u0 Nt).u = roll u0 (Nt : ℤ)
  rw [runScheme_u, upwind_unit_iterate]

/-- Claim C7: for every initial field, Courant number, grid spacing and
step count, the Leapfrog history entry at index 1 is exactly the FECS
single-step formula applied to the entry at index 0. -/
theorem leapfrog_bootstrap_eq_fecs {n : ℕ} {K : Type} [Field K] (u0 : Fin n → K)
    (C dx : K) (Nt : ℕ) :
    (runLeapfrog u0 C dx Nt).hist[1]? = some (fecsStep C u0) := by
  rw [runLeapfrog_hist_one]
  exact rfl

/-- Claim C8: for every scheme the mass trace is exactly the history
mapped through `mass = dx * Σ(field)`, entry by entry (in particular both
have equal length and the initial entry is included). -/
theorem mass_trace_consistency {n : ℕ} {K : Type} [Field K] (u0 : Fin n → K)
    (C dx : K) (Nt : ℕ) :
    (runFecs u0 C dx Nt).mass = (runFecs u0 C dx Nt).hist.map (fun v => dx * total v) ∧
      (runUpwind u0 C dx Nt).mass = (runUpwind u0 C dx Nt).hist.map (fun v => dx * total v) ∧
      (runLw u0 C dx Nt).mass = (runLw u0 C dx Nt).hist.map (fun v => dx * total v) ∧
      (runLeapfrog u0 C dx Nt).mass = (runLeapfrog u0 C dx Nt).hist.map (fun v => dx * total v) :=
  ⟨runScheme_mass_map _ _ _ _, runScheme_mass_map _ _ _ _,
    runScheme_mass_map _ _ _ _, runLeapfrog_mass_map _ _ _ _⟩

/-- Claim C10: in exact arithmetic every scheme conserves the total mass
exactly at every step — every history entry sums to `Σu0` and every mass
trace is constant with value `dx * Σu0` (for Leapfrog the trace has
`Nt - 1 + 2` entries, its actual length). -/
theorem mass_conservation_exact {n : ℕ} {K : Type} [Field K] (u0 : Fin n → K)
    (C dx : K) (Nt : ℕ) :
    ((runFecs u0 C dx Nt).hist.map total = List.replicate (Nt + 1) (total u0) ∧
      (runFecs u0 C dx Nt).mass = List.replicate (Nt + 1) (dx * total u0)) ∧
    ((runUpwind u0 C dx Nt).hist.map total = List.replicate (Nt + 1) (total u0) ∧
      (runUpwind u0 C dx Nt).mass = List.replicate (Nt + 1) (dx * total u0)) ∧
    ((runLw u0 C dx Nt).hist.map total = List.replicate (Nt + 1) (total u0) ∧
      (runLw u0 C dx Nt).mass = List.replicate (Nt + 1) (dx * total u0)) ∧
    ((runLeapfrog u0 C dx Nt).hist.map total = List.replicate (Nt - 1 + 2) (total u0) ∧
      (runLeapfrog u0 C dx Nt).mass = List.replicate (Nt - 1 + 2) (dx * total u0)) :=
  ⟨runScheme_conserves (fecsStep_total C) dx u0 Nt,
    runScheme_conserves (upwindStep_total C) dx u0 Nt,
    runScheme_conserves (lwStep_total C) dx u0 Nt,
    runLeapfrog_conserves u0 C dx Nt⟩

/-- Claim C9 (amended): FECS never damps — for every Courant number `C`
(of either sign) the discrete ℓ² energy `Σ u²` is non-decreasing under a
single FECS step and along the whole run, the von Neumann signature of the
scheme's instability; the specific tenfold max-amplitude growth after 500
steps does not hold for every `C > 0` (see the counterexample). -/
theorem fecs_energy_instability {n : ℕ} {K : Type} [LinearOrderedField K] (C : K)
    (u0 : Fin n → K) (dx : K) (Nt : ℕ) :
    (∀ u : Fin n → K, energy u ≤ energy (fecsStep C u)) ∧
      energy u0 ≤ energy ((runFecs u0 C dx Nt).u) := by
  refine ⟨fun u => fecsStep_energy_le C u, ?_⟩
  show energy u0 ≤ energy ((runScheme (fecsStep C) dx u0 Nt).u)
  rw [runScheme_u]
  exact fecs_energy_iterate C u0 Nt

/-- Claim C3 (amended): the Square Pulse with `L = 1`, `Nx = 4`,
`x0 = 1/2`, `σ = 3/10` on the grid `{0, 1/4, 1/2, 3/4}` yields exactly
`{0, 1, 1, 1}`: the fourth point satisfies `|3/4 - 1/2| = 1/4 < 3/10`. -/
theorem square_pulse_c3_value :
    squarePulse (3/10) (1/2) (grid 1 4) = pulseActualC3 := by
  funext i
  fin_cases i <;> norm_num [squarePulse, grid, pulseActualC3, abs_lt]

/-- Claim C3 counterexample: the Square Pulse field of the scenario is `1`
at the grid point `3/4` (index 3), so it is not the asserted `{0,1,1,0}`. -/
theorem square_pulse_c3_cex :
    squarePulse (3/10) (1/2) (grid 1 4) ⟨3, by norm_num⟩ = 1 ∧
      squarePulse (3/10) (1/2) (grid 1 4) ≠ pulseSpecC3 := by
  constructor
  · norm_num [squarePulse, grid, abs_lt]
  · intro h
    have h3 := congrFun h ⟨3, by norm_num⟩
    norm_num [squarePulse, grid, pulseSpecC3, abs_lt] at h3

/-- Claim C4 counterexample: on the field `(0, 1, 2)` with `Nx = 3`,
`shift(u, +1)` at index 0 is `u[2] = 2` — the left neighbor — while the
right-neighbor operator gives `u[1] = 1`, so `shift(u, +1)` is not the
right-neighbor operator `R`. -/
theorem shift_plus_one_not_right_neighbor :
    roll ramp3 1 ⟨0, by norm_num⟩ = 2 ∧
      rightNeighborSpec ramp3 ⟨0, by norm_num⟩ = 1 ∧
      roll ramp3 1 ≠ rightNeighborSpec ramp3 := by
  have ht : Int.toNat 2 = 2 := rfl
  refine ⟨?_, ?_, ?_⟩
  · norm_num [roll, rotIdx, ramp3, ht]
  · norm_num [rightNeighborSpec, ramp3]
  · intro h
    have h0 := congrFun h ⟨0, by norm_num⟩
    norm_num [roll, rotIdx, ramp3, rightNeighborSpec, ht] at h0

/-- Claim C5 (amended): the engine itself never rejects anything, but
every configuration the sliders can produce is valid in the spec's sense,
and for it the derived `dx` and `dt` are strictly positive (so the
divisions by `v` and `dx` are harmless) and `Nt` is non-negative. -/
theorem slider_ranges_ensure_valid (c : Config) (h : sliderValid c) :
    specValid c ∧ 0 < dxOf c ∧ 0 < dtOf c ∧ 0 ≤ NtOf c := by
  obtain ⟨hL1, hL2, hv1, hv2, hT1, hT2, hNx, hC1, hC2, hs1, hs2, hx1, hx2⟩ := h
  have hNx0 : 0 < c.Nx := by
    simp only [List.mem_cons, List.not_mem_nil, or_false] at hNx
    rcases hNx with h | h | h | h | h <;> rw [h] <;> norm_num
  have hNxQ : (0 : ℚ) < (c.Nx : ℚ) := by exact_mod_cast hNx0
  have hL0 : 0 < c.L := by linarith
  have hv0 : 0 < c.v := by linarith
  have hT0 : 0 < c.Tmax := by linarith
  have hC0 : 0 < c.C := by linarith
  have hs0 : 0 < c.sigma := by linarith
  have hdx : 0 < dxOf c := div_pos hL0 hNxQ
  have hdt : 0 < dtOf c := div_pos (mul_pos hC0 hdx) hv0
  exact ⟨⟨hL0, hv0, hT0, hNx0, hC0, hs0⟩, hdx, hdt,
    pyRound_nonneg (le_of_lt (div_pos hT0 hdt))⟩

theorem slider_ranges_ensure_valid_witness :
    specValid ⟨1, 1, 1, 100, 4/5, 1/20, 1/4⟩ ∧
      0 < dxOf ⟨1, 1, 1, 100, 4/5, 1/20, 1/4⟩ ∧
      0 < dtOf ⟨1, 1, 1, 100, 4/5, 1/20, 1/4⟩ ∧
      0 ≤ NtOf ⟨1, 1, 1, 100, 4/5, 1/20, 1/4⟩ :=
  slider_ranges_ensure_valid _ (by norm_num [sliderValid, List.mem_cons])

/-- Claim C5 counterexample: the invalid configuration `L = -1` (the rest
valid) is not rejected anywhere — the derivation layer computes
`dx = -1/4`, `dt = -1/4`, `Nt = -4`, and the FECS block still runs,
producing the one-entry history of its initial field instead of an error. -/
theorem invalid_config_not_rejected :
    ¬ specValid badConfig ∧
      (appFecs badConfig (squarePulse badConfig.sigma badConfig.x0
          (grid badConfig.L badConfig.Nx))).hist
        = [squarePulse badConfig.sigma badConfig.x0 (grid badConfig.L badConfig.Nx)] := by
  constructor
  · intro h
    have hL := h.1
    norm_num [badConfig] at hL
  · have hNt : NtOf badConfig = -4 := by
      have hx : badConfig.Tmax / dtOf badConfig = -4 := by
        norm_num [badConfig, dtOf, dxOf]
      show pyRound (badConfig.Tmax / dtOf badConfig) = -4
      rw [hx]
      norm_num [pyRound]
    show (runFecs _ badConfig.C (dxOf badConfig) (NtOf badConfig).toNat).hist = _
    rw [hNt]
    rfl

/-- Claim C6 counterexample: Upwind with `C = 1` on the impulse `(1,0,0)`
with `Nt = 1` produces `(0,1,0)` — the impulse moved right — whereas the
initial field shifted left by one position is `(0,0,1)`. -/
theorem upwind_unit_not_left_shift :
    (runUpwind impulse3 1 1 1).u ⟨1, by norm_num⟩ = 1 ∧
      shiftedLeftSpec 1 impulse3 ⟨1, by norm_num⟩ = 0 ∧
      (runUpwind impulse3 1 1 1).u ≠ shiftedLeftSpec 1 impulse3 := by
  have hu : (runUpwind impulse3 1 1 1).u = roll impulse3 1 := by
    show (runScheme (upwindStep 1) 1 impulse3 1).u = roll impulse3 1
    rw [runScheme_u, upwind_unit_iterate]
    norm_num
  refine ⟨?_, ?_, ?_⟩
  · rw [hu]
    norm_num [roll, rotIdx, impulse3]
  · norm_num [shiftedLeftSpec, impulse3]
  · rw [hu]
    intro h
    have h1 := congrFun h ⟨1, by norm_num⟩
    norm_num [roll, rotIdx, impulse3, shiftedLeftSpec] at h1

/-- Claim C9 counterexample: at the Courant number `C = 1/1000 > 0`, with
`Nx = 100`, `Nt = 500` and the Bell initial condition (defaults `σ = 1/20`,
`x0 = 1/4`, `L = 1`), the maximum absolute value of the final history
entry stays strictly below 10 times the initial maximum (indeed below
twice), so the tenfold-growth property fails for this `C > 0`. -/
theorem fecs_small_courant_bounded :
    0 < (1/1000 : ℝ) ∧
      (runFecs (bellIC 1 100 (1/20) (1/4)) (1/1000) (1/100) 500).hist.getLast?
        = some ((runFecs (bellIC 1 100 (1/20) (1/4)) (1/1000) (1/100) 500).u) ∧
      maxAbs ((runFecs (bellIC 1 100 (1/20) (1/4)) (1/1000) (1/100) 500).u)
        < 10 * maxAbs (bellIC 1 100 (1/20) (1/4)) := by
  refine ⟨by norm_num, runScheme_hist_getLast _ _ _ _, ?_⟩
  have hpos : 0 < maxAbs (bellIC 1 100 (1/20) (1/4)) := by
    have h0 : (0:ℝ) < bellIC 1 100 (1/20) (1/4) ⟨0, by norm_num⟩ := Real.exp_pos _
    have h1 := abs_le_maxAbs (bellIC 1 100 (1/20) (1/4)) ⟨0, by norm_num⟩
    have h2 := le_abs_self (bellIC 1 100 (1/20) (1/4) ⟨0, by norm_num⟩)
    linarith
  have hbound : maxAbs ((runFecs (bellIC 1 100 (1/20) (1/4)) (1/1000) (1/100) 500).u)
      ≤ (1 + 1/1000) ^ 500 * maxAbs (bellIC 1 100 (1/20) (1/4)) := by
    show maxAbs ((runScheme (fecsStep (1/1000)) (1/100) (bellIC 1 100 (1/20) (1/4)) 500).u)
      ≤ (1 + 1/1000) ^ 500 * maxAbs (bellIC 1 100 (1/20) (1/4))
    rw [runScheme_u]
    exact fecs_iterate_maxAbs (by norm_num) _ 500
  have hg := pow_small_growth
  have hmul : ((1:ℝ) + 1/1000) ^ 500 * maxAbs (bellIC 1 100 (1/20) (1/4))
      ≤ 2 * maxAbs (bellIC 1 100 (1/20) (1/4)) :=
    mul_le_mul_of_nonneg_right hg (maxAbs_nonneg _)
  linarith

end Advection
